import Mathlib

/-!
Verification of the chess engine in src/src/main.ts (client of the ches web app).

The embedding below translates the engine's data model and operations into Lean:

* JavaScript numbers used as board indices are modelled as `Int`.
* `board.squares[x][y].occupant` is modelled by `occAt` (total, `none` when the
  index is outside the 8 by 8 grid) and by `occE` (in the `Except Unit` monad,
  erroring exactly when the JavaScript access would throw a TypeError because
  `board.squares[x]` or `board.squares[x][y]` is `undefined`).
* Mutation of a `BoardSquare.occupant` field is modelled by `setOcc` and its
  throwing variant `setOccE`.
* The rendering fields (`mesh`, `name`) and the UI field `PieceState.selected`
  carry no game state and are omitted; no serialized or validated datum
  depends on them.
-/

set_option maxRecDepth 100000

/-- Babylon.js Vector2 restricted to what the chess code uses: an (x, y) pair
of numbers, modelled as integers. -/
structure Vec2 where
  x : Int
  y : Int
  deriving DecidableEq, Repr

/-- enum PieceColor { Dark, Light } -/
inductive PieceColor where
  | Dark
  | Light
  deriving DecidableEq, Repr, Fintype

/-- enum PieceType { Pawn, Knight, Bishop, Rook, Queen, King } -/
inductive PieceType where
  | Pawn
  | Knight
  | Bishop
  | Rook
  | Queen
  | King
  deriving DecidableEq, Repr, Fintype

/-- class PieceState: position, enPassant and notMoved fields.  The `selected`
field is UI-only (never read by the engine) and is omitted. -/
structure PieceState where
  position : Vec2
  enPassant : Bool
  notMoved : Bool
  deriving DecidableEq, Repr

/-- new PieceState(position) -/
def PieceState.init (position : Vec2) : PieceState :=
  { position := position, enPassant := false, notMoved := true }

/-- class ChessPiece: type, color and state (mesh and name are rendering-only). -/
structure ChessPiece where
  type : PieceType
  color : PieceColor
  state : PieceState
  deriving DecidableEq, Repr

/-- class ChessBoard: an 8 by 8 array of BoardSquare.  A BoardSquare carries
only its `occupant : ChessPiece | null` (plus a rendering mesh), so a board is
modelled as a function from the two indices to `Option ChessPiece`. -/
def ChessBoard := Fin 8 → Fin 8 → Option ChessPiece

instance : DecidableEq ChessBoard := by
  unfold ChessBoard
  infer_instance

/-- new ChessBoard(): every square's occupant is null. -/
def emptyBoard : ChessBoard := fun _ _ => none

/-- Reading `board.squares[x][y].occupant` with arbitrary integer indices:
total version, `none` when the indices are outside the grid.  It is used where
the source only ever reads in-range indices. -/
def occAt (b : ChessBoard) (x y : Int) : Option ChessPiece :=
  if h : 0 ≤ x ∧ x < 8 ∧ 0 ≤ y ∧ y < 8 then
    b ⟨x.toNat, by omega⟩ ⟨y.toNat, by omega⟩
  else none

/-- Reading `board.squares[x][y].occupant`: throwing version.  When `x` or `y`
is outside `[0, 7]`, the JavaScript expression evaluates `.occupant` on
`undefined` and throws a TypeError, modelled as `Except.error ()`. -/
def occE (b : ChessBoard) (x y : Int) : Except Unit (Option ChessPiece) :=
  if 0 ≤ x ∧ x < 8 ∧ 0 ≤ y ∧ y < 8 then .ok (occAt b x y) else .error ()

/-- Writing `board.squares[x][y].occupant = v` (total version; out-of-range
writes change nothing and are only used where the source stays in range). -/
def setOcc (b : ChessBoard) (x y : Int) (v : Option ChessPiece) : ChessBoard :=
  fun i j => if (i.val : Int) = x ∧ (j.val : Int) = y then v else b i j

/-- Writing `board.squares[x][y].occupant = v`: throwing version, erroring
exactly when the JavaScript assignment would throw on an undefined square. -/
def setOccE (b : ChessBoard) (x y : Int) (v : Option ChessPiece) :
    Except Unit ChessBoard :=
  if 0 ≤ x ∧ x < 8 ∧ 0 ≤ y ∧ y < 8 then .ok (setOcc b x y v) else .error ()

/-- The square coordinates in the order every `for i { for j }` loop of the
source visits them: file-major, i (file) outer, j (rank) inner. -/
def squaresList : List (Fin 8 × Fin 8) :=
  (List.finRange 8).flatMap fun i => (List.finRange 8).map fun j => (i, j)

/-- ChessBoard.copyState(): a fresh board (fresh BoardSquare cells) whose
squares receive, one by one, the same occupant references as the original. -/
def ChessBoard.copyState (b : ChessBoard) : ChessBoard :=
  squaresList.foldl (fun other q => setOcc other q.1.val q.2.val (b q.1 q.2)) emptyBoard

/-! ## Serialization codec (PieceState.toSerial / ChessBoard.toSerial / fromSerial) -/

/-- The kind letter emitted by the switch in ChessBoard.toSerial. -/
def kindChar : PieceType → Char
  | .Pawn => 'p'
  | .Knight => 'n'
  | .Bishop => 'b'
  | .Rook => 'r'
  | .Queen => 'q'
  | .King => 'k'

/-- The color digit: Light pieces serialize as character zero, Dark as one. -/
def colorChar (c : PieceColor) : Char :=
  if c = .Light then '0' else '1'

/-- A boolean flag serialized as a zero or one character. -/
def boolChar (b : Bool) : Char :=
  if b then '1' else '0'

/-- function vec2ChessCoords(vector): a file letter from 'a' plus x, then the
rank digit y + 1.  Faithful for the in-range coordinates the engine stores. -/
def vec2ChessCoords (v : Vec2) : List Char :=
  [Char.ofNat (97 + v.x).toNat, Char.ofNat (49 + v.y).toNat]

/-- PieceState.toSerial(): coordinates, then the enPassant digit, then the
notMoved digit. -/
def PieceState.toSerial (s : PieceState) : List Char :=
  vec2ChessCoords s.position ++ [boolChar s.enPassant, boolChar s.notMoved]

/-- The six-character record ChessBoard.toSerial appends for an occupied
square, and the empty string for an unoccupied one. -/
def recordAt (b : ChessBoard) (q : Fin 8 × Fin 8) : List Char :=
  match b q.1 q.2 with
  | none => []
  | some occupant =>
    kindChar occupant.type :: colorChar occupant.color :: occupant.state.toSerial

/-- The serialization of a board when the squares are visited in the order
given by `order`; each occupied square contributes its record. -/
def toSerialOrder (b : ChessBoard) (order : List (Fin 8 × Fin 8)) : List Char :=
  order.flatMap (recordAt b)

/-- ChessBoard.toSerial(): the source's nested loop visits the squares in
file-major order and concatenates the records of the occupied squares. -/
def ChessBoard.toSerial (b : ChessBoard) : List Char :=
  toSerialOrder b squaresList

/-- JavaScript `s.charAt(n)` yields the empty string out of range; the model
distinguishes that case with `none`. -/
def charAtOpt (l : List Char) (n : Nat) : Option Char := l[n]?

/-- A stand-in for the NaN that `parseInt` and `charCodeAt` produce on
malformed input.  The engine only ever uses such a value as an array index,
where NaN and any out-of-range integer behave identically (the access yields
undefined and the subsequent member access throws). -/
def nanSentinel : Int := -100

/-- function chessCoords2vec(coords): char code of coords[0] minus the code of
'a', and parseInt of coords[1] minus one. -/
def chessCoords2vec (coords : List Char) : Vec2 :=
  { x :=
      match charAtOpt coords 0 with
      | some c => (c.toNat : Int) - 97
      | none => nanSentinel
    y :=
      match charAtOpt coords 1 with
      | some c => if c.isDigit then ((c.toNat : Int) - 48) - 1 else nanSentinel
      | none => nanSentinel }

/-- PieceState.fromSerial(serial): position from the first two characters,
enPassant from the third, notMoved from the fourth; a missing character
compares unequal to the digit one, hence false. -/
def PieceState.fromSerial (serial : List Char) : PieceState :=
  { position := chessCoords2vec (serial.take 2)
    enPassant := charAtOpt serial 2 = some '1'
    notMoved := charAtOpt serial 3 = some '1' }

/-- The kind switch of ChessBoard.fromSerial; an unrecognized (or missing)
letter leaves the initial value PieceType.Pawn. -/
def parseKind (c : Option Char) : PieceType :=
  match c with
  | some 'p' => .Pawn
  | some 'n' => .Knight
  | some 'b' => .Bishop
  | some 'r' => .Rook
  | some 'q' => .Queen
  | some 'k' => .King
  | _ => .Pawn

/-- The color parse of ChessBoard.fromSerial: the digit zero means Light,
anything else (including a missing character) means Dark. -/
def parseColor (c : Option Char) : PieceColor :=
  if c = some '0' then .Light else .Dark

/-- The body of one iteration of the fromSerial loop: build the piece from one
chunk and store it at its parsed position (throwing if that position indexes
outside the grid, as the JavaScript assignment would). -/
def placeChunk (chunk : List Char) (b : ChessBoard) : Except Unit ChessBoard :=
  let newPieceColor := parseColor (charAtOpt chunk 1)
  let newPieceState := PieceState.fromSerial (chunk.drop 2)
  let newPieceType := parseKind (charAtOpt chunk 0)
  let newPiece : ChessPiece :=
    { type := newPieceType, color := newPieceColor, state := newPieceState }
  setOccE b newPieceState.position.x newPieceState.position.y (some newPiece)

/-- The fromSerial loop: consume the string six characters at a time.  A full
chunk is the next six characters; when fewer than six remain, substring clamps
and the final (short) chunk is the whole remainder, after which the loop
ends. -/
def fromSerialGo : List Char → ChessBoard → Except Unit ChessBoard
  | [], b => .ok b
  | c0 :: c1 :: c2 :: c3 :: c4 :: c5 :: rest, b =>
    match placeChunk [c0, c1, c2, c3, c4, c5] b with
    | .error e => .error e
    | .ok b2 => fromSerialGo rest b2
  | chunk, b =>
    match placeChunk chunk b with
    | .error e => .error e
    | .ok b2 => .ok b2

/-- static ChessBoard.fromSerial(serial): start from a fresh empty board and
run the chunk loop. -/
def ChessBoard.fromSerial (serial : List Char) : Except Unit ChessBoard :=
  fromSerialGo serial emptyBoard

/-! ## Check detector (function isInCheck) -/

/-- The JavaScript test `difference.y / difference.x > 0` with floating-point
division: positive iff the two differences have the same strict sign, and
`dy / 0` is a signed infinity, so the test reduces to `0 < dy` when `dx = 0`
(and `0 / 0` is NaN, which is not greater than zero). -/
def jsPositiveSlope (dx dy : Int) : Bool :=
  if dx = 0 then decide (0 < dy) else decide ((0 < dx ∧ 0 < dy) ∨ (dx < 0 ∧ dy < 0))

/-- The integers a straight-line scan visits: from `min a b + 1` up to
`max a b - 1`, i.e. the coordinates strictly between the two endpoints. -/
def betweenInts (a b : Int) : List Int :=
  (List.range (max a b - 1 + 1 - (min a b + 1)).toNat).map fun (k : Nat) =>
    min a b + 1 + (k : Int)

/-- The squares visited by the diagonal obstruction loops: starting at
(startFile + 1, startRank + 1) moving up-right for a positive slope, or at
(startFile + 1, endRank - 1) moving down-right otherwise; both loops run
`endFile - startFile - 1` iterations when the move is a true diagonal. -/
def diagSquares (positiveSlope : Bool) (startFile endFile startRank endRank : Int) :
    List (Int × Int) :=
  (List.range (endFile - 1 + 1 - (startFile + 1)).toNat).map fun (k : Nat) =>
    if positiveSlope then (startFile + 1 + (k : Int), startRank + 1 + (k : Int))
    else (startFile + 1 + (k : Int), endRank - 1 - (k : Int))

/-- Horizontal obstruction scan (both in isInCheck and isMoveLegal the loop
stops at the first occupied square, so it computes an existential). -/
def hObstructed (b : ChessBoard) (rank fileA fileB : Int) : Bool :=
  (betweenInts fileA fileB).any fun x => (occAt b x rank).isSome

/-- Vertical obstruction scan as written in isMoveLegal (and in the horizontal
scans): stop at the first occupied square. -/
def vObstructed (b : ChessBoard) (file rankA rankB : Int) : Bool :=
  (betweenInts rankA rankB).any fun y => (occAt b file y).isSome

/-- Vertical obstruction scan as written in the Rook and Queen cases of
isInCheck: the loop body sets the flag and then says `continue` rather than
`break`, so the scan always visits the whole range, folding the flag along. -/
def vObstructedKeepGoing (b : ChessBoard) (file rankA rankB : Int) : Bool :=
  (betweenInts rankA rankB).foldl
    (fun obstructed y => if (occAt b file y).isSome then true else obstructed) false

/-- Diagonal obstruction scan: stop at the first occupied square. -/
def diagObstructed (b : ChessBoard) (positiveSlope : Bool)
    (startFile endFile startRank endRank : Int) : Bool :=
  (diagSquares positiveSlope startFile endFile startRank endRank).any
    fun q => (occAt b q.1 q.2).isSome

/-- One arm of the attacker switch in isInCheck: does `attacker` (an enemy
piece already filtered by color) attack the king standing at `kingPosition`?
The differences are taken from the attacker's stored position, exactly as the
source does. -/
def threatens (b : ChessBoard) (kingPosition : Vec2) (attacker : ChessPiece) : Bool :=
  let ax := attacker.state.position.x
  let ay := attacker.state.position.y
  let dx := kingPosition.x - ax
  let dy := kingPosition.y - ay
  let positiveSlope := jsPositiveSlope dx dy
  let startFile := min ax kingPosition.x
  let endFile := max ax kingPosition.x
  let startRank := min ay kingPosition.y
  let endRank := max ay kingPosition.y
  match attacker.type with
  | .Pawn =>
    if dx.natAbs = 1 then
      let forwardStep : Int := if attacker.color = .Light then 1 else -1
      decide (ay + forwardStep = kingPosition.y)
    else false
  | .Knight =>
    decide ((dx.natAbs = 1 ∧ dy.natAbs = 2) ∨ (dx.natAbs = 2 ∧ dy.natAbs = 1))
  | .Bishop =>
    if dx.natAbs = dy.natAbs then
      !diagObstructed b positiveSlope startFile endFile startRank endRank
    else false
  | .Rook =>
    (decide (dy = 0) && !hObstructed b ay startFile endFile) ||
    (decide (dx = 0) && !vObstructedKeepGoing b ax startRank endRank)
  | .Queen =>
    (decide (dx.natAbs = dy.natAbs) &&
      !diagObstructed b positiveSlope startFile endFile startRank endRank) ||
    (decide (dy = 0) && !hObstructed b ay startFile endFile) ||
    (decide (dx = 0) && !vObstructedKeepGoing b ax startRank endRank)
  | .King =>
    decide (dx.natAbs ≤ 1 ∧ dy.natAbs ≤ 1)

/-- The first loop of isInCheck: scan every square in file-major order and
remember the coordinates of the most recently seen King of `color`, starting
from the garbage value (-1, -1). -/
def kingScan (b : ChessBoard) (color : PieceColor) : Vec2 :=
  squaresList.foldl
    (fun kingPosition q =>
      match b q.1 q.2 with
      | some occupant =>
        if occupant.color = color ∧ occupant.type = .King then
          { x := (q.1.val : Int), y := (q.2.val : Int) }
        else kingPosition
      | none => kingPosition)
    { x := -1, y := -1 }

/-- The second loop of isInCheck: return true as soon as some enemy occupant
threatens the given king position. -/
def attackScan (b : ChessBoard) (color : PieceColor) (kingPosition : Vec2) : Bool :=
  squaresList.any fun q =>
    match b q.1 q.2 with
    | some occupant =>
      if occupant.color ≠ color then threatens b kingPosition occupant else false
    | none => false

/-- function isInCheck(board, color): locate the king (keeping the garbage
initializer when there is none), return false when no king was found, and
otherwise scan for an attacker. -/
def isInCheck (b : ChessBoard) (color : PieceColor) : Bool :=
  let kingPosition := kingScan b color
  if kingPosition = { x := -1, y := -1 } then false
  else attackScan b color kingPosition

/-! ## Move validator (function isMoveLegal) -/

/-- The Pawn case of the isMoveLegal switch.  Each inner `if` of the source
returns true on success and otherwise falls through to the next block (and
finally to `return false`), so the case is a disjunction of the blocks in
source order. -/
def pawnRule (b : ChessBoard) (piece : ChessPiece) (newLocation : Vec2) : Bool :=
  let px := piece.state.position.x
  let py := piece.state.position.y
  if piece.color = .Light then
    (decide (newLocation = { x := px, y := py + 1 }) &&
      (occAt b newLocation.x newLocation.y).isNone) ||
    (piece.state.notMoved &&
      decide (newLocation = { x := px, y := py + 2 }) &&
      (occAt b newLocation.x newLocation.y).isNone &&
      (occAt b newLocation.x (newLocation.y - 1)).isNone) ||
    ((decide (newLocation = { x := px + 1, y := py + 1 }) ||
      decide (newLocation = { x := px - 1, y := py + 1 })) &&
      ((occAt b newLocation.x newLocation.y).isSome ||
        (match occAt b newLocation.x (newLocation.y - 1) with
         | some q => q.state.enPassant && decide (q.color ≠ piece.color)
         | none => false)))
  else
    (decide (newLocation = { x := px, y := py - 1 }) &&
      (occAt b newLocation.x newLocation.y).isNone) ||
    (piece.state.notMoved &&
      decide (newLocation = { x := px, y := py - 2 }) &&
      (occAt b newLocation.x newLocation.y).isNone &&
      (occAt b newLocation.x (newLocation.y + 1)).isNone) ||
    ((decide (newLocation = { x := px + 1, y := py - 1 }) ||
      decide (newLocation = { x := px - 1, y := py - 1 })) &&
      ((occAt b newLocation.x newLocation.y).isSome ||
        (match occAt b newLocation.x (newLocation.y + 1) with
         | some q => q.state.enPassant && decide (q.color ≠ piece.color)
         | none => false)))

/-- The Knight case: two in one direction and one in the other. -/
def knightRule (piece : ChessPiece) (newLocation : Vec2) : Bool :=
  let dx := newLocation.x - piece.state.position.x
  let dy := newLocation.y - piece.state.position.y
  decide ((dx.natAbs = 1 ∧ dy.natAbs = 2) ∨ (dx.natAbs = 2 ∧ dy.natAbs = 1))

/-- The Bishop case: a true diagonal whose strictly-between squares are all
empty (the loop returns false at the first occupied square, true after). -/
def bishopRule (b : ChessBoard) (piece : ChessPiece) (newLocation : Vec2) : Bool :=
  let px := piece.state.position.x
  let py := piece.state.position.y
  let dx := newLocation.x - px
  let dy := newLocation.y - py
  if dx.natAbs = dy.natAbs then
    !diagObstructed b (jsPositiveSlope dx dy) (min px newLocation.x)
      (max px newLocation.x) (min py newLocation.y) (max py newLocation.y)
  else false

/-- The Rook case: both straight-line blocks of the source use a loop that
returns false at the first occupied square and returns true after it. -/
def rookRule (b : ChessBoard) (piece : ChessPiece) (newLocation : Vec2) : Bool :=
  let px := piece.state.position.x
  let py := piece.state.position.y
  let dx := newLocation.x - px
  let dy := newLocation.y - py
  if dy = 0 then !hObstructed b py (min px newLocation.x) (max px newLocation.x)
  else if dx = 0 then !vObstructed b px (min py newLocation.y) (max py newLocation.y)
  else false

/-- The Queen case: the diagonal block, then the horizontal block, then the
vertical block, each deciding the move when its entry test holds. -/
def queenRule (b : ChessBoard) (piece : ChessPiece) (newLocation : Vec2) : Bool :=
  let px := piece.state.position.x
  let py := piece.state.position.y
  let dx := newLocation.x - px
  let dy := newLocation.y - py
  if dx.natAbs = dy.natAbs then
    !diagObstructed b (jsPositiveSlope dx dy) (min px newLocation.x)
      (max px newLocation.x) (min py newLocation.y) (max py newLocation.y)
  else if dy = 0 then !hObstructed b py (min px newLocation.x) (max px newLocation.x)
  else if dx = 0 then !vObstructed b px (min py newLocation.y) (max py newLocation.y)
  else false

/-- The King case: an adjacent step, or castling.  Castling requires an
unmoved king moving two files on its own rank; the king must not pass through
check on the intermediate square (tested on a copyState snapshot holding the
king there), the intermediate square must be empty, and the corner square
(file 0 for a long castle, file 7 for a short one) must hold an unmoved piece
of type Rook.  The source never compares the corner piece's color. -/
def kingRule (b : ChessBoard) (piece : ChessPiece) (newLocation : Vec2) : Bool :=
  let px := piece.state.position.x
  let py := piece.state.position.y
  let dx := newLocation.x - px
  let dy := newLocation.y - py
  if dx.natAbs ≤ 1 ∧ dy.natAbs ≤ 1 then true
  else if dy = 0 ∧ dx.natAbs = 2 then
    if piece.state.notMoved then
      let longCastle := dx < 0
      let midX := px + (if longCastle then -1 else 1)
      let midCastleState :=
        setOcc (setOcc b.copyState px py none) midX py (some piece)
      if isInCheck midCastleState piece.color then false
      else if (occAt b midX py).isSome then false
      else
        match occAt b (if longCastle then 0 else 7) py with
        | some cornerPiece => cornerPiece.type = .Rook && cornerPiece.state.notMoved
        | none => false
    else false
  else false

/-- The per-kind switch of isMoveLegal. -/
def pieceRule (b : ChessBoard) (piece : ChessPiece) (newLocation : Vec2) : Bool :=
  match piece.type with
  | .Pawn => pawnRule b piece newLocation
  | .Knight => knightRule piece newLocation
  | .Bishop => bishopRule b piece newLocation
  | .Rook => rookRule b piece newLocation
  | .Queen => queenRule b piece newLocation
  | .King => kingRule b piece newLocation

/-- function isMoveLegal(board, piece, newLocation).  In source order: the
bounds check (rejecting only coordinates strictly greater than 8 or strictly
less than 0), the in-place check, the own-capture check (whose square read
throws when the destination indexes outside the grid, which the bounds check
fails to exclude for an index equal to 8), the speculative self-check test on
a copyState snapshot, and finally the per-kind rules.  The per-kind rules only
read squares between coordinates already proven in range by the earlier reads
and writes, so they are modelled with the total accessors. -/
def isMoveLegal (b : ChessBoard) (piece : ChessPiece) (newLocation : Vec2) :
    Except Unit Bool :=
  if 8 < newLocation.x ∨ newLocation.x < 0 ∨ 8 < newLocation.y ∨ newLocation.y < 0 then
    .ok false
  else if piece.state.position = newLocation then .ok false
  else
    match occE b newLocation.x newLocation.y with
    | .error e => .error e
    | .ok destOcc =>
      if destOcc.elim false (fun q => decide (q.color = piece.color)) then .ok false
      else
        match setOccE b.copyState piece.state.position.x piece.state.position.y none with
        | .error e => .error e
        | .ok newBoardState1 =>
          match setOccE newBoardState1 newLocation.x newLocation.y (some piece) with
          | .error e => .error e
          | .ok newBoardState =>
            if isInCheck newBoardState piece.color then .ok false
            else .ok (pieceRule b piece newLocation)

/-! ## Move applier (App.clearSquare / App.movePiece / the legal branch of
App.onPiecePlaced) -/

/-- App.clearSquare(coords): reads the occupant (removing its mesh) and then
nulls the square; the read throws when the coordinates index off the grid. -/
def clearSquareE (b : ChessBoard) (x y : Int) : Except Unit ChessBoard :=
  match occE b x y with
  | .error e => .error e
  | .ok _ => .ok (setOcc b x y none)

/-- App.movePiece(from, to): return unchanged when the origin is empty;
otherwise clear the destination (capture), null the origin, store the piece at
the destination, and update the piece's stored position and notMoved flag
(the source mutates the piece object after storing its reference, so the
stored piece carries the updated state). -/
def movePiece (b : ChessBoard) (fromV toV : Vec2) : Except Unit ChessBoard :=
  match occE b fromV.x fromV.y with
  | .error e => .error e
  | .ok none => .ok b
  | .ok (some piece) =>
    match clearSquareE b toV.x toV.y with
    | .error e => .error e
    | .ok b1 =>
      .ok (setOcc (setOcc b1 fromV.x fromV.y none) toV.x toV.y
        (some { type := piece.type, color := piece.color
                state := { position := toV, enPassant := piece.state.enPassant
                           notMoved := false } }))

/-- The update-en-passant loop of App.onPiecePlaced: every occupant of every
square gets its enPassant flag cleared. -/
def clearAllEnPassant (b : ChessBoard) : ChessBoard :=
  fun i j =>
    (b i j).map fun occupant =>
      { type := occupant.type, color := occupant.color
        state := { position := occupant.state.position, enPassant := false
                   notMoved := occupant.state.notMoved } }

/-- The statement `this.selectedPiece.state.enPassant = true`: the selected
piece is (by the well-formedness hypothesis of the theorems using this
function) the occupant of the square holding its stored position, so the
mutation is modelled as an update of that square's occupant. -/
def setEnPassantTrueAt (b : ChessBoard) (x y : Int) : ChessBoard :=
  match occAt b x y with
  | some occupant =>
    setOcc b x y
      (some { type := occupant.type, color := occupant.color
              state := { position := occupant.state.position, enPassant := true
                         notMoved := occupant.state.notMoved } })
  | none => b

/-- The legal branch of App.onPiecePlaced (src/src/main.ts lines 893-933), in
source order: remove the en-passant victim behind the destination when the
mover is a pawn (the square read short-circuits on the pawn test), clear
enPassant on every piece on the board, set enPassant on the mover if it is a
pawn whose rank changed by two, relocate the castling rook when the mover is a
king whose file changed by two, and finally move the piece itself. -/
def onPiecePlacedApply (b : ChessBoard) (selectedPiece : ChessPiece) (coords : Vec2) :
    Except Unit ChessBoard :=
  let oldPosition := selectedPiece.state.position
  let behind : Int := if selectedPiece.color = .Light then -1 else 1
  match (if selectedPiece.type = .Pawn then occE b coords.x (coords.y + behind)
         else .ok none) with
  | .error e => .error e
  | .ok behindOcc =>
    let b1 :=
      match behindOcc with
      | some victim =>
        if victim.color ≠ selectedPiece.color ∧ victim.state.enPassant then
          setOcc b coords.x (coords.y + behind) none
        else b
      | none => b
    let b2 := clearAllEnPassant b1
    let b3 :=
      if selectedPiece.type = .Pawn ∧ (oldPosition.y - coords.y).natAbs = 2 then
        setEnPassantTrueAt b2 oldPosition.x oldPosition.y
      else b2
    match (if selectedPiece.type = .King ∧ (coords.x - oldPosition.x).natAbs = 2 then
            movePiece b3
              { x := if coords.x - oldPosition.x < 0 then 0 else 7, y := oldPosition.y }
              { x := if coords.x - oldPosition.x < 0 then oldPosition.x - 1
                     else oldPosition.x + 1,
                y := oldPosition.y }
           else .ok b3) with
    | .error e => .error e
    | .ok b4 => movePiece b4 oldPosition coords

/-! ## Reference-level model of piece sharing, for ChessBoard.copyState

The value-level `ChessBoard` above cannot express aliasing, so the copyState
claims about shared mutable state are settled on a board of piece references
together with an explicit piece heap: `ChessBoard.copyState` allocates fresh
BoardSquare cells but copies the `occupant` references unchanged, which this
model renders as a fresh `RefBoard` value holding the same `Nat` references. -/

/-- A board square holding a reference into the piece heap (or null). -/
def RefBoard := Fin 8 → Fin 8 → Option Nat

/-- The piece heap: what piece object each reference currently designates. -/
def PieceHeap := Nat → ChessPiece

/-- Writing one square of a reference board. -/
def setRef (rb : RefBoard) (x y : Int) (v : Option Nat) : RefBoard :=
  fun i j => if (i.val : Int) = x ∧ (j.val : Int) = y then v else rb i j

/-- ChessBoard.copyState() at the reference level: a fresh board whose squares
receive the original's occupant references one by one. -/
def copyStateRef (rb : RefBoard) : RefBoard :=
  squaresList.foldl (fun other q => setRef other q.1.val q.2.val (rb q.1 q.2))
    (fun _ _ => none)

/-- Mutating the piece object behind one reference (for example assigning its
enPassant flag or its position). -/
def updateHeap (h : PieceHeap) (r : Nat) (pc : ChessPiece) : PieceHeap :=
  fun s => if s = r then pc else h s

/-- What a board holder observes on a square: the piece object its reference
currently designates. -/
def observePiece (h : PieceHeap) (rb : RefBoard) (i j : Fin 8) : Option ChessPiece :=
  (rb i j).map h

/-! ## Concrete instances used by the closed theorems below -/

/-- A small reachable board: Light pawn c4 carrying the en-passant flag, Light
king e1, Dark rook e8. -/
def sampleBoard : ChessBoard := fun i j =>
  if i.val = 4 ∧ j.val = 0 then
    some { type := .King, color := .Light
           state := { position := { x := 4, y := 0 }, enPassant := false, notMoved := true } }
  else if i.val = 4 ∧ j.val = 7 then
    some { type := .Rook, color := .Dark
           state := { position := { x := 4, y := 7 }, enPassant := false, notMoved := false } }
  else if i.val = 2 ∧ j.val = 3 then
    some { type := .Pawn, color := .Light
           state := { position := { x := 2, y := 3 }, enPassant := true, notMoved := false } }
  else none

/-- The Light bishop standing on e4 in `c3Board`. -/
def c3Bishop : ChessPiece :=
  { type := .Bishop, color := .Light
    state := { position := { x := 4, y := 3 }, enPassant := false, notMoved := false } }

/-- Light king e1, Dark rook e8, Light bishop e4 blocking the file: moving the
bishop anywhere off the e-file exposes the king. -/
def c3Board : ChessBoard := fun i j =>
  if i.val = 4 ∧ j.val = 0 then
    some { type := .King, color := .Light
           state := { position := { x := 4, y := 0 }, enPassant := false, notMoved := true } }
  else if i.val = 4 ∧ j.val = 7 then
    some { type := .Rook, color := .Dark
           state := { position := { x := 4, y := 7 }, enPassant := false, notMoved := false } }
  else if i.val = 4 ∧ j.val = 3 then some c3Bishop
  else none

/-- The unmoved Light king on e1 attempting the long castle in `castleBoard`. -/
def castleKing : ChessPiece :=
  { type := .King, color := .Light
    state := { position := { x := 4, y := 0 }, enPassant := false, notMoved := true } }

/-- An unmoved Dark rook sitting on the a1 corner of `castleBoard`. -/
def castleDarkRook : ChessPiece :=
  { type := .Rook, color := .Dark
    state := { position := { x := 0, y := 0 }, enPassant := false, notMoved := true } }

/-- Light king e1 (unmoved), enemy Dark rook a1 (unmoved), and a Light knight
b1 shielding the first rank between them. -/
def castleBoard : ChessBoard := fun i j =>
  if i.val = 4 ∧ j.val = 0 then some castleKing
  else if i.val = 0 ∧ j.val = 0 then some castleDarkRook
  else if i.val = 1 ∧ j.val = 0 then
    some { type := .Knight, color := .Light
           state := { position := { x := 1, y := 0 }, enPassant := false, notMoved := true } }
  else none

/-- The unmoved Light pawn on e2 in `c5Board`. -/
def c5Pawn : ChessPiece :=
  { type := .Pawn, color := .Light
    state := { position := { x := 4, y := 1 }, enPassant := false, notMoved := true } }

/-- A Light pawn on e2 about to double-step, and a Dark pawn on d5 still
carrying the en-passant flag from a previous turn. -/
def c5Board : ChessBoard := fun i j =>
  if i.val = 4 ∧ j.val = 1 then some c5Pawn
  else if i.val = 3 ∧ j.val = 4 then
    some { type := .Pawn, color := .Dark
           state := { position := { x := 3, y := 4 }, enPassant := true, notMoved := false } }
  else none

/-- A board holding only a Dark king: no Light king anywhere. -/
def noLightKingBoard : ChessBoard := fun i j =>
  if i.val = 3 ∧ j.val = 3 then
    some { type := .King, color := .Dark
           state := { position := { x := 3, y := 3 }, enPassant := false, notMoved := false } }
  else none

/-- The Dark rook on e8 used as the attacker in the C8 witness. -/
def c8Rook : ChessPiece :=
  { type := .Rook, color := .Dark
    state := { position := { x := 4, y := 7 }, enPassant := false, notMoved := false } }

/-- Light king e1 and Dark rook e8 with the e-file clear between them. -/
def c8Board : ChessBoard := fun i j =>
  if i.val = 4 ∧ j.val = 0 then
    some { type := .King, color := .Light
           state := { position := { x := 4, y := 0 }, enPassant := false, notMoved := true } }
  else if i.val = 4 ∧ j.val = 7 then some c8Rook
  else none

/-- The Light king on f4 that the file-major scan meets last. -/
def lastKingPiece : ChessPiece :=
  { type := .King, color := .Light
    state := { position := { x := 5, y := 3 }, enPassant := false, notMoved := false } }

/-- Two Light kings, on a1 and on f4; the file-major scan meets the f4 king
last. -/
def twoKingsBoard : ChessBoard := fun i j =>
  if i.val = 0 ∧ j.val = 0 then
    some { type := .King, color := .Light
           state := { position := { x := 0, y := 0 }, enPassant := false, notMoved := false } }
  else if i.val = 5 ∧ j.val = 3 then some lastKingPiece
  else if i.val = 0 ∧ j.val = 7 then
    some { type := .Rook, color := .Dark
           state := { position := { x := 0, y := 7 }, enPassant := false, notMoved := false } }
  else none

/-- The pawn object reference 0 designates in the heap `h9`. -/
def pawn9 : ChessPiece :=
  { type := .Pawn, color := .Light
    state := { position := { x := 0, y := 1 }, enPassant := false, notMoved := true } }

/-- The same pawn object after its enPassant flag is assigned true. -/
def mutatedPawn9 : ChessPiece :=
  { type := .Pawn, color := .Light
    state := { position := { x := 0, y := 1 }, enPassant := true, notMoved := true } }

/-- A piece heap in which every reference designates `pawn9`. -/
def h9 : PieceHeap := fun _ => pawn9

/-- A reference board holding reference 0 on square a2. -/
def rb9 : RefBoard := fun i j => if i.val = 0 ∧ j.val = 1 then some 0 else none

/-- The per-square test of the first isInCheck loop, as a reusable predicate:
does this square hold a King of the given color? -/
def isKingCell (b : ChessBoard) (color : PieceColor) (q : Fin 8 × Fin 8) : Bool :=
  match b q.1 q.2 with
  | some occupant => decide (occupant.color = color ∧ occupant.type = PieceType.King)
  | none => false

/-- Strict file-major order on square coordinates: earlier file, or same file
and earlier rank.  The nested scan loops visit squares in this order. -/
def fileMajorLt (p q : Fin 8 × Fin 8) : Prop :=
  p.1 < q.1 ∨ (p.1 = q.1 ∧ p.2 < q.2)

instance : DecidableRel fileMajorLt := fun p q => by
  unfold fileMajorLt
  infer_instance

/-- Decidable equality of validator results: a board is a function on the
finite grid, so equality of boards (and of results carrying them) is
decidable, which lets concrete runs of the engine be checked by evaluation. -/
instance : DecidableEq (Except Unit ChessBoard) := fun x y =>
  match x, y with
  | .error a, .error b =>
    if h : a = b then isTrue (by rw [h]) else isFalse (fun he => h (Except.error.inj he))
  | .error _, .ok _ => isFalse (fun he => Except.noConfusion he)
  | .ok _, .error _ => isFalse (fun he => Except.noConfusion he)
  | .ok a, .ok b =>
    if h : a = b then isTrue (by rw [h]) else isFalse (fun he => h (Except.ok.inj he))

/-- The board expected after the Light pawn double-steps e2 to e4 on c5Board:
the Dark pawn's stale en-passant flag is cleared and only the moved pawn
carries the flag. -/
def c5After : ChessBoard := fun i j =>
  if i.val = 3 ∧ j.val = 4 then
    some { type := .Pawn, color := .Dark
           state := { position := { x := 3, y := 4 }, enPassant := false, notMoved := false } }
  else if i.val = 4 ∧ j.val = 3 then
    some { type := .Pawn, color := .Light
           state := { position := { x := 4, y := 3 }, enPassant := true, notMoved := false } }
  else none

/-- A Light rook on a1, used to probe the isMoveLegal bounds check. -/
def c1Rook : ChessPiece :=
  { type := .Rook, color := .Light
    state := { position := { x := 0, y := 0 }, enPassant := false, notMoved := true } }

/-! ## Helper lemmas -/

theorem setOcc_apply (b : ChessBoard) (x y : Int) (v : Option ChessPiece)
    (i j : Fin 8) :
    setOcc b x y v i j = if (i.val : Int) = x ∧ (j.val : Int) = y then v else b i j :=
  rfl
theorem foldl_setOcc_mem (b : ChessBoard) (l : List (Fin 8 × Fin 8))
    (init : ChessBoard) (i j : Fin 8) :
    (l.foldl (fun other q => setOcc other q.1.val q.2.val (b q.1 q.2)) init) i j =
      if (i, j) ∈ l then b i j else init i j := by
  induction l generalizing init with
  | nil => simp
  | cons q l ih =>
    simp only [List.foldl_cons, ih, List.mem_cons]
    by_cases hmem : (i, j) ∈ l
    · simp [hmem]
    · have : ((i, j) = q ∨ (i, j) ∈ l) ↔ (i, j) = q := by tauto
      simp only [hmem, if_false, this]
      by_cases hq : (i, j) = q
      · subst hq
        simp [setOcc_apply]
      · have hne : ¬((i.val : Int) = q.1.val ∧ (j.val : Int) = q.2.val) := by
          intro ⟨h1, h2⟩
          apply hq
          have e1 : i = q.1 := Fin.ext (by exact_mod_cast h1)
          have e2 : j = q.2 := Fin.ext (by exact_mod_cast h2)
          rw [e1, e2]
        rw [setOcc_apply, if_neg hne, if_neg]
        simpa using hq
theorem mem_squaresList (q : Fin 8 × Fin 8) : q ∈ squaresList := by
  obtain ⟨i, j⟩ := q
  simp [squaresList]
/-- copyState reproduces the original occupancy on every square. -/
theorem copyState_apply (b : ChessBoard) (i j : Fin 8) :
    b.copyState i j = b i j := by
  unfold ChessBoard.copyState
  rw [foldl_setOcc_mem]
  simp [mem_squaresList]
theorem copyState_eq (b : ChessBoard) : b.copyState = b := by
  funext i j
  exact copyState_apply b i j
theorem foldl_setRef_mem (rb : RefBoard) (l : List (Fin 8 × Fin 8))
    (init : RefBoard) (i j : Fin 8) :
    (l.foldl (fun other q => setRef other q.1.val q.2.val (rb q.1 q.2)) init) i j =
      if (i, j) ∈ l then rb i j else init i j := by
  induction l generalizing init with
  | nil => simp
  | cons q l ih =>
    simp only [List.foldl_cons, ih, List.mem_cons]
    by_cases hmem : (i, j) ∈ l
    · simp [hmem]
    · have : ((i, j) = q ∨ (i, j) ∈ l) ↔ (i, j) = q := by tauto
      simp only [hmem, if_false, this]
      by_cases hq : (i, j) = q
      · subst hq
        simp [setRef]
      · have hne : ¬((i.val : Int) = q.1.val ∧ (j.val : Int) = q.2.val) := by
          intro ⟨h1, h2⟩
          apply hq
          have e1 : i = q.1 := Fin.ext (by exact_mod_cast h1)
          have e2 : j = q.2 := Fin.ext (by exact_mod_cast h2)
          rw [e1, e2]
        rw [setRef, if_neg hne, if_neg]
        simpa using hq

theorem occAt_coe (b : ChessBoard) (i j : Fin 8) :
    occAt b (i.val : Int) (j.val : Int) = b i j := by
  have hx := i.isLt
  have hy := j.isLt
  have hcond : 0 ≤ (i.val : Int) ∧ (i.val : Int) < 8 ∧ 0 ≤ (j.val : Int) ∧ (j.val : Int) < 8 := by
    refine ⟨?_, ?_, ?_, ?_⟩ <;> omega
  rw [occAt, dif_pos hcond]
  congr 1

theorem occAt_some_bounds (b : ChessBoard) (x y : Int) (pc : ChessPiece)
    (h : occAt b x y = some pc) : 0 ≤ x ∧ x < 8 ∧ 0 ≤ y ∧ y < 8 := by
  by_contra hc
  rw [occAt, dif_neg hc] at h
  exact Option.noConfusion h

theorem occE_ok (b : ChessBoard) (x y : Int)
    (h : 0 ≤ x ∧ x < 8 ∧ 0 ≤ y ∧ y < 8) : occE b x y = .ok (occAt b x y) := by
  rw [occE, if_pos h]

theorem setOccE_ok (b : ChessBoard) (x y : Int) (v : Option ChessPiece)
    (h : 0 ≤ x ∧ x < 8 ∧ 0 ≤ y ∧ y < 8) : setOccE b x y v = .ok (setOcc b x y v) := by
  rw [setOccE, if_pos h]

theorem occAt_setOcc_self (b : ChessBoard) (x y : Int) (v : Option ChessPiece)
    (h : 0 ≤ x ∧ x < 8 ∧ 0 ≤ y ∧ y < 8) : occAt (setOcc b x y v) x y = v := by
  rw [occAt, dif_pos h, setOcc_apply, if_pos]
  exact ⟨by simp [Int.toNat_of_nonneg h.1], by simp [Int.toNat_of_nonneg h.2.2.1]⟩

theorem occAt_setOcc_of_ne (b : ChessBoard) (x y x2 y2 : Int) (v : Option ChessPiece)
    (h : ¬(x2 = x ∧ y2 = y)) : occAt (setOcc b x y v) x2 y2 = occAt b x2 y2 := by
  by_cases hb : 0 ≤ x2 ∧ x2 < 8 ∧ 0 ≤ y2 ∧ y2 < 8
  · rw [occAt, dif_pos hb, occAt, dif_pos hb, setOcc_apply, if_neg]
    intro ⟨h1, h2⟩
    simp only [Fin.val_mk, Int.toNat_of_nonneg hb.1, Int.toNat_of_nonneg hb.2.2.1] at h1 h2
    exact h ⟨h1, h2⟩
  · rw [occAt, dif_neg hb, occAt, dif_neg hb]

theorem kingScan_eq_garbage (b : ChessBoard) (color : PieceColor)
    (hnk : ∀ (i j : Fin 8) (pc : ChessPiece), b i j = some pc →
      ¬(pc.color = color ∧ pc.type = PieceType.King)) :
    kingScan b color = { x := -1, y := -1 } := by
  unfold kingScan
  have key : ∀ (l : List (Fin 8 × Fin 8)) (acc : Vec2),
      l.foldl
        (fun kingPosition q =>
          match b q.1 q.2 with
          | some occupant =>
            if occupant.color = color ∧ occupant.type = .King then
              { x := (q.1.val : Int), y := (q.2.val : Int) }
            else kingPosition
          | none => kingPosition)
        acc = acc := by
    intro l
    induction l with
    | nil => intro acc; rfl
    | cons q l ih =>
      intro acc
      rw [List.foldl_cons]
      have hstep :
          (match b q.1 q.2 with
           | some occupant =>
             if occupant.color = color ∧ occupant.type = .King then
               ({ x := (q.1.val : Int), y := (q.2.val : Int) } : Vec2)
             else acc
           | none => acc) = acc := by
        cases hq : b q.1 q.2 with
        | none => rfl
        | some pc =>
          simp only []
          rw [if_neg (hnk q.1 q.2 pc hq)]
      rw [hstep]
      exact ih acc
  exact key squaresList _

/-! ## Claim theorems -/

/-- C1: the bounds check of isMoveLegal compares with strict inequalities
against 8 and 0, so a destination with file 8 (off the board) is not rejected:
instead the own-capture read indexes past the squares array and throws (the
error value here), while a file of 9 is rejected with false.  The claim that
every destination with file or rank outside [0, 7] yields false is therefore
false at file 8. -/
theorem isMoveLegal_bounds_off_by_one :
    isMoveLegal emptyBoard c1Rook { x := 8, y := 0 } = .error () ∧
    isMoveLegal emptyBoard c1Rook { x := 9, y := 0 } = .ok false ∧
    isMoveLegal emptyBoard c1Rook { x := 0, y := 8 } = .error () := by
  refine ⟨?_, ?_, ?_⟩ <;> rfl

/-- C6: fromSerial does not fail on malformed input: a record with the
unrecognized kind letter x decodes to a Pawn (the switch's silently-kept
initial value), and an input of length 4 (not a multiple of 6) still decodes
to a board with a pawn on it rather than erroring. -/
theorem fromSerial_accepts_malformed :
    (ChessBoard.fromSerial ['x', '0', 'a', '3', '1', '1']).map
      (fun b2 => (b2 0 2).map ChessPiece.type) = .ok (some .Pawn) ∧
    (ChessBoard.fromSerial ['p', '0', 'a', '2']).map
      (fun b2 => (b2 0 1).map ChessPiece.type) = .ok (some .Pawn) := by
  exact ⟨by rfl, by rfl⟩

/-- C7: when the board holds no King of the queried color, the king scan keeps
its garbage initializer and isInCheck returns false, whatever else is on the
board. -/
theorem isInCheck_no_king (b : ChessBoard) (color : PieceColor)
    (hnk : ∀ (i j : Fin 8) (pc : ChessPiece), b i j = some pc →
      ¬(pc.color = color ∧ pc.type = PieceType.King)) :
    isInCheck b color = false := by
  rw [isInCheck]
  rw [kingScan_eq_garbage b color hnk]
  simp

theorem isInCheck_no_king_witness :
    (∀ (i j : Fin 8) (pc : ChessPiece), noLightKingBoard i j = some pc →
      ¬(pc.color = PieceColor.Light ∧ pc.type = PieceType.King)) ∧
    isInCheck noLightKingBoard PieceColor.Light = false := by
  have hnk : ∀ (i j : Fin 8) (pc : ChessPiece), noLightKingBoard i j = some pc →
      ¬(pc.color = PieceColor.Light ∧ pc.type = PieceType.King) := by
    intro i j pc h
    fin_cases i <;> fin_cases j <;> simp [noLightKingBoard] at h
    simp [← h]
  exact ⟨hnk, isInCheck_no_king noLightKingBoard PieceColor.Light hnk⟩

/-- C9 counterexample: copyState copies occupant references, not piece
objects.  On the reference board rb9 the copy's square a2 yields reference 0;
assigning the enPassant flag of the piece behind that reference (obtained
through the copy) changes what the original board observes on a2, so the copy
does share mutable state with the original. -/
theorem copyState_piece_sharing_cex :
    copyStateRef rb9 0 1 = some 0 ∧
    observePiece (updateHeap h9 0 mutatedPawn9) rb9 0 1 ≠ observePiece h9 rb9 0 1 := by
  exact ⟨by decide, by decide⟩

/-- C9 (amended): copyState returns a board equal in occupancy to the
original, holding on every square the same piece reference; the square cells
themselves are fresh, but because the references coincide, mutating the piece
object reachable from the copy is observed through the original board as
well. -/
theorem copyState_occupancy_shared_refs (rb : RefBoard) (i j : Fin 8) :
    copyStateRef rb i j = rb i j ∧
    ∀ (h : PieceHeap) (r : Nat) (pc : ChessPiece),
      copyStateRef rb i j = some r →
      observePiece (updateHeap h r pc) rb i j = some pc := by
  have hcopy : copyStateRef rb i j = rb i j := by
    unfold copyStateRef
    rw [foldl_setRef_mem]
    simp [mem_squaresList]
  refine ⟨hcopy, fun h r pc hr => ?_⟩
  rw [hcopy] at hr
  rw [observePiece, hr]
  simp [updateHeap]

theorem copyState_occupancy_shared_refs_witness :
    copyStateRef rb9 0 1 = rb9 0 1 ∧
    observePiece (updateHeap h9 0 mutatedPawn9) rb9 0 1 = some mutatedPawn9 := by
  refine ⟨(copyState_occupancy_shared_refs rb9 0 1).1, ?_⟩
  exact (copyState_occupancy_shared_refs rb9 0 1).2 h9 0 mutatedPawn9 (by decide)

/-- C3: for an in-bounds destination distinct from the origin and not occupied
by a same-color piece, if placing the piece on the destination of a copyState
snapshot (with the origin emptied) leaves the mover's color in check, then
isMoveLegal answers false — for every piece kind, the per-kind rules never
being consulted. -/
theorem isMoveLegal_self_check_rejected (b : ChessBoard) (piece : ChessPiece)
    (newLocation : Vec2)
    (hnx : 0 ≤ newLocation.x ∧ newLocation.x < 8)
    (hny : 0 ≤ newLocation.y ∧ newLocation.y < 8)
    (hpx : 0 ≤ piece.state.position.x ∧ piece.state.position.x < 8)
    (hpy : 0 ≤ piece.state.position.y ∧ piece.state.position.y < 8)
    (hne : piece.state.position ≠ newLocation)
    (hown : ∀ pc, occAt b newLocation.x newLocation.y = some pc →
      pc.color ≠ piece.color)
    (hchk : isInCheck
      (setOcc (setOcc b.copyState piece.state.position.x piece.state.position.y none)
        newLocation.x newLocation.y (some piece)) piece.color = true) :
    isMoveLegal b piece newLocation = .ok false := by
  have hb1 : ¬(8 < newLocation.x ∨ newLocation.x < 0 ∨ 8 < newLocation.y ∨
      newLocation.y < 0) := by omega
  have hownb : (occAt b newLocation.x newLocation.y).elim false
      (fun q => decide (q.color = piece.color)) = false := by
    cases hq : occAt b newLocation.x newLocation.y with
    | none => rfl
    | some q => simp [hown q hq]
  rw [isMoveLegal, if_neg hb1, if_neg hne,
    occE_ok b _ _ ⟨hnx.1, hnx.2, hny.1, hny.2⟩]
  simp only [hownb, Bool.false_eq_true, if_false,
    setOccE_ok _ _ _ _ ⟨hpx.1, hpx.2, hpy.1, hpy.2⟩,
    setOccE_ok _ _ _ _ ⟨hnx.1, hnx.2, hny.1, hny.2⟩, hchk, if_true]

theorem isMoveLegal_self_check_rejected_witness :
    isInCheck (setOcc (setOcc c3Board.copyState 4 3 none) 3 4 (some c3Bishop))
      c3Bishop.color = true ∧
    isMoveLegal c3Board c3Bishop { x := 3, y := 4 } = .ok false := by
  have hown : ∀ pc, occAt c3Board (3 : Int) (4 : Int) = some pc →
      pc.color ≠ c3Bishop.color := by
    intro pc h
    have hnone : occAt c3Board (3 : Int) (4 : Int) = none := by rfl
    rw [hnone] at h
    exact Option.noConfusion h
  have hchk : isInCheck
      (setOcc (setOcc c3Board.copyState 4 3 none) 3 4 (some c3Bishop))
      c3Bishop.color = true := by decide
  exact ⟨hchk, isMoveLegal_self_check_rejected c3Board c3Bishop { x := 3, y := 4 }
    (by decide) (by decide) (by decide) (by decide) (by decide) hown hchk⟩

theorem foldl_flag_eq_any (l : List Int) (p : Int → Bool) (acc : Bool) :
    l.foldl (fun obstructed y => if p y then true else obstructed) acc =
      (acc || l.any p) := by
  induction l generalizing acc with
  | nil => simp
  | cons y l ih =>
    rw [List.foldl_cons, ih]
    cases hp : p y <;> cases acc <;> simp [hp]

theorem mem_betweenInts (a c y : Int) :
    y ∈ betweenInts a c ↔ min a c < y ∧ y < max a c := by
  unfold betweenInts
  rw [List.mem_map]
  constructor
  · rintro ⟨k, hk, rfl⟩
    rw [List.mem_range] at hk
    omega
  · intro h
    exact ⟨(y - min a c - 1).toNat, List.mem_range.mpr (by omega), by omega⟩

theorem betweenInts_minmax (a c : Int) :
    betweenInts (min a c) (max a c) = betweenInts a c := by
  unfold betweenInts
  rw [min_eq_left min_le_max, max_eq_right min_le_max]

theorem vKeepGoing_iff_clear (b : ChessBoard) (file a c : Int) :
    (!vObstructedKeepGoing b file (min a c) (max a c)) = true ↔
      ∀ y : Int, min a c < y → y < max a c → occAt b file y = none := by
  rw [vObstructedKeepGoing, betweenInts_minmax, foldl_flag_eq_any]
  simp only [Bool.false_or, Bool.not_eq_true', List.any_eq_false]
  constructor
  · intro h y h1 h2
    have := h y ((mem_betweenInts a c y).mpr ⟨h1, h2⟩)
    simpa [Option.isSome_iff_ne_none] using this
  · intro h y hy
    obtain ⟨h1, h2⟩ := (mem_betweenInts a c y).mp hy
    simp [h y h1 h2]

/-- C8: in the check detector, an enemy Rook (or the rook pattern of an enemy
Queen) standing on the king's file contributes an attack exactly when every
square strictly between it and the king on that file is unoccupied: the
vertical obstruction scan, although it continues instead of breaking, still
computes exactly the obstruction predicate. -/
theorem rook_file_attack_iff_clear (b : ChessBoard) (kingPosition : Vec2)
    (attacker : ChessPiece)
    (ht : attacker.type = PieceType.Rook ∨ attacker.type = PieceType.Queen)
    (hsame : attacker.state.position.x = kingPosition.x)
    (hdiff : attacker.state.position.y ≠ kingPosition.y) :
    (threatens b kingPosition attacker = true ↔
      ∀ y : Int, min attacker.state.position.y kingPosition.y < y →
        y < max attacker.state.position.y kingPosition.y →
        occAt b attacker.state.position.x y = none) := by
  have hdx : kingPosition.x - attacker.state.position.x = 0 := by omega
  have hdy : ¬(kingPosition.y - attacker.state.position.y = 0) := by omega
  have hdyabs : ¬((kingPosition.x - attacker.state.position.x).natAbs =
      (kingPosition.y - attacker.state.position.y).natAbs) := by omega
  rw [threatens]
  rcases ht with h | h <;> rw [h] <;>
    simp only [decide_eq_false hdy, decide_eq_false hdyabs, decide_eq_true hdx,
      Bool.false_and, Bool.true_and, Bool.false_or] <;>
    exact vKeepGoing_iff_clear b attacker.state.position.x
      attacker.state.position.y kingPosition.y

theorem rook_file_attack_iff_clear_witness :
    (threatens c8Board { x := 4, y := 0 } c8Rook = true ↔
      ∀ y : Int, min (7 : Int) 0 < y → y < max (7 : Int) 0 →
        occAt c8Board 4 y = none) ∧
    threatens c8Board { x := 4, y := 0 } c8Rook = true := by
  constructor
  · exact rook_file_attack_iff_clear c8Board { x := 4, y := 0 } c8Rook
      (Or.inl rfl) (by decide) (by decide)
  · decide

theorem foldl_last_match {α β : Type} (p : α → Bool) (v : α → β) (l : List α) (acc : β) :
    l.foldl (fun a q => if p q then v q else a) acc =
      ((l.filter p).getLast?).elim acc v := by
  induction l generalizing acc with
  | nil => rfl
  | cons q l ih =>
    rw [List.foldl_cons]
    by_cases hp : p q = true
    · rw [if_pos hp, ih (v q), List.filter_cons_of_pos hp]
      cases hfl : l.filter p with
      | nil => simp
      | cons x xs =>
        rw [List.getLast?_cons_cons,
          List.getLast?_eq_getLast_of_ne_nil (List.cons_ne_nil x xs)]
        rfl
    · rw [if_neg (by simpa using hp), ih acc, List.filter_cons_of_neg hp]

theorem kingScan_eq_last (b : ChessBoard) (color : PieceColor) :
    kingScan b color =
      ((squaresList.filter (isKingCell b color)).getLast?).elim
        { x := -1, y := -1 }
        (fun q => { x := (q.1.val : Int), y := (q.2.val : Int) }) := by
  unfold kingScan
  have hfn : (fun (kingPosition : Vec2) (q : Fin 8 × Fin 8) =>
      match b q.1 q.2 with
      | some occupant =>
        if occupant.color = color ∧ occupant.type = .King then
          ({ x := (q.1.val : Int), y := (q.2.val : Int) } : Vec2)
        else kingPosition
      | none => kingPosition) =
      (fun a q =>
        if isKingCell b color q then
          ({ x := (q.1.val : Int), y := (q.2.val : Int) } : Vec2)
        else a) := by
    funext a q
    cases hq : b q.1 q.2 with
    | none => simp [isKingCell, hq]
    | some pc => simp [isKingCell, hq]
  rw [hfn, foldl_last_match]

theorem pairwise_rel_getLast {α : Type} (R : α → α → Prop) (l : List α) :
    l.Pairwise R → ∀ x ∈ l, ∀ gl, l.getLast? = some gl → x = gl ∨ R x gl := by
  induction l with
  | nil =>
    intro _ x hx
    cases hx
  | cons a t ih =>
    intro hp x hx gl hgl
    cases t with
    | nil =>
      simp only [List.getLast?_singleton, Option.some.injEq] at hgl
      simp only [List.mem_singleton] at hx
      left
      rw [hx, hgl]
    | cons b t2 =>
      rw [List.getLast?_cons_cons] at hgl
      rcases List.mem_cons.mp hx with rfl | hx2
      · right
        have hglmem : gl ∈ b :: t2 := by
          obtain ⟨hne, rfl⟩ := List.mem_getLast?_eq_getLast (by rw [hgl]; rfl)
          exact List.getLast_mem hne
        exact (List.pairwise_cons.mp hp).1 gl hglmem
      · exact ih (List.pairwise_cons.mp hp).2 x hx2 gl hgl

theorem squaresList_pairwise : squaresList.Pairwise fileMajorLt := by decide

/-- C10: when several Kings of the queried color are on the board, the
file-major scan of isInCheck keeps the last one it meets — the king with the
greatest file, and among equal files the greatest rank — and the attacker scan
is then run against that king's square only, so attacks on the other
same-color kings never decide the result. -/
theorem isInCheck_uses_last_king (b : ChessBoard) (color : PieceColor)
    (kx ky : Fin 8) (K : ChessPiece)
    (hK : b kx ky = some K) (hcol : K.color = color)
    (hty : K.type = PieceType.King)
    (hmax : ∀ (i j : Fin 8) (pc : ChessPiece), b i j = some pc →
      pc.color = color → pc.type = PieceType.King →
      (i < kx ∨ (i = kx ∧ j ≤ ky))) :
    isInCheck b color =
      attackScan b color { x := (kx.val : Int), y := (ky.val : Int) } := by
  have hscan : kingScan b color = { x := (kx.val : Int), y := (ky.val : Int) } := by
    rw [kingScan_eq_last]
    have hmem : ((kx, ky) : Fin 8 × Fin 8) ∈ squaresList.filter (isKingCell b color) := by
      refine List.mem_filter.mpr ⟨mem_squaresList _, ?_⟩
      simp [isKingCell, hK, hcol, hty]
    obtain ⟨gl, hgl⟩ : ∃ gl,
        (squaresList.filter (isKingCell b color)).getLast? = some gl := by
      cases hfl : squaresList.filter (isKingCell b color) with
      | nil => rw [hfl] at hmem; cases hmem
      | cons a t =>
        exact ⟨(a :: t).getLast (List.cons_ne_nil a t),
          List.getLast?_eq_getLast_of_ne_nil _⟩
    rw [hgl]
    have hglmem : gl ∈ squaresList.filter (isKingCell b color) := by
      obtain ⟨hne, rfl⟩ := List.mem_getLast?_eq_getLast (by rw [hgl]; rfl)
      exact List.getLast_mem hne
    have hglking : isKingCell b color gl = true := (List.mem_filter.mp hglmem).2
    have hpairf := squaresList_pairwise.filter (isKingCell b color)
    have hcmp := pairwise_rel_getLast fileMajorLt _ hpairf (kx, ky) hmem gl hgl
    rcases hcmp with heq | hlt
    · rw [← heq]
      rfl
    · exfalso
      have hcases : gl.1 < kx ∨ (gl.1 = kx ∧ gl.2 ≤ ky) := by
        unfold isKingCell at hglking
        cases hq : b gl.1 gl.2 with
        | none => rw [hq] at hglking; cases hglking
        | some pc =>
          rw [hq] at hglking
          have hpc := of_decide_eq_true hglking
          exact hmax gl.1 gl.2 pc hq hpc.1 hpc.2
      simp only [fileMajorLt, Fin.lt_def, Fin.le_def, Fin.ext_iff] at hlt hcases
      omega
  have hne : ¬({ x := (kx.val : Int), y := (ky.val : Int) } : Vec2) =
      { x := -1, y := -1 } := by
    intro hEq
    have hx := congrArg Vec2.x hEq
    dsimp only at hx
    omega
  rw [isInCheck, hscan, if_neg hne]

theorem isInCheck_uses_last_king_witness :
    twoKingsBoard 5 3 = some lastKingPiece ∧
    isInCheck twoKingsBoard PieceColor.Light =
      attackScan twoKingsBoard PieceColor.Light { x := 5, y := 3 } := by
  have hmax : ∀ (i j : Fin 8) (pc : ChessPiece), twoKingsBoard i j = some pc →
      pc.color = PieceColor.Light → pc.type = PieceType.King →
      (i < 5 ∨ (i = 5 ∧ j ≤ 3)) := by
    intro i j pc h hc ht
    fin_cases i <;> fin_cases j <;> simp [twoKingsBoard] at h <;>
      first
        | exact Or.inl (by decide)
        | exact Or.inr ⟨rfl, by decide⟩
  exact ⟨by decide, isInCheck_uses_last_king twoKingsBoard PieceColor.Light 5 3
    lastKingPiece (by decide) rfl rfl hmax⟩

/-- C4 counterexample: on castleBoard the Light king's long castle from e1 to
c1 is accepted although the a1 corner holds a Dark (enemy) rook: the corner
check of isMoveLegal compares only the corner piece's type and notMoved flag,
never its color. -/
theorem castling_ignores_corner_color_cex :
    isMoveLegal castleBoard castleKing { x := 2, y := 0 } = .ok true ∧
    occAt castleBoard 0 0 = some castleDarkRook ∧
    castleDarkRook.color ≠ castleKing.color := by
  refine ⟨by rfl, by rfl, by decide⟩

/-- C4 (amended): a castling attempt — a King with notMoved true moving two
files along its own rank — is accepted only if the corner square at file 0
(long) or file 7 (short) on the king's rank holds an unmoved piece of type
Rook; the corner piece's color is not constrained. -/
theorem castling_needs_unmoved_corner_rook (b : ChessBoard) (piece : ChessPiece)
    (newLocation : Vec2)
    (hking : piece.type = PieceType.King)
    (hnm : piece.state.notMoved = true)
    (hdy : newLocation.y = piece.state.position.y)
    (hdx : (newLocation.x - piece.state.position.x).natAbs = 2)
    (hok : isMoveLegal b piece newLocation = .ok true) :
    ∃ cornerPiece,
      occAt b (if newLocation.x - piece.state.position.x < 0 then 0 else 7)
        piece.state.position.y = some cornerPiece ∧
      cornerPiece.type = PieceType.Rook ∧ cornerPiece.state.notMoved = true := by
  obtain ⟨ptype, pcolor, pstate⟩ := piece
  dsimp only at hking hnm hdy hdx hok ⊢
  subst hking
  rw [isMoveLegal] at hok
  split at hok
  · exact absurd (Except.ok.inj hok) Bool.false_ne_true
  split at hok
  · exact absurd (Except.ok.inj hok) Bool.false_ne_true
  split at hok
  · exact Except.noConfusion hok
  split at hok
  · exact absurd (Except.ok.inj hok) Bool.false_ne_true
  split at hok
  · exact Except.noConfusion hok
  split at hok
  · exact Except.noConfusion hok
  split at hok
  · exact absurd (Except.ok.inj hok) Bool.false_ne_true
  have hrule := Except.ok.inj hok
  simp only [pieceRule, kingRule] at hrule
  rw [if_neg (show ¬((newLocation.x - pstate.position.x).natAbs ≤ 1 ∧
      (newLocation.y - pstate.position.y).natAbs ≤ 1) from by omega)] at hrule
  rw [if_pos (show newLocation.y - pstate.position.y = 0 ∧
      (newLocation.x - pstate.position.x).natAbs = 2 from ⟨by omega, hdx⟩)] at hrule
  rw [if_pos hnm] at hrule
  by_cases hlc : newLocation.x - pstate.position.x < 0
  · simp only [if_pos hlc] at hrule ⊢
    split at hrule
    · exact absurd hrule Bool.false_ne_true
    split at hrule
    · exact absurd hrule Bool.false_ne_true
    split at hrule
    next cp heq =>
      refine ⟨cp, heq, ?_⟩
      simp only [Bool.and_eq_true, decide_eq_true_eq] at hrule
      exact hrule
    next heq =>
      exact absurd hrule Bool.false_ne_true
  · simp only [if_neg hlc] at hrule ⊢
    split at hrule
    · exact absurd hrule Bool.false_ne_true
    split at hrule
    · exact absurd hrule Bool.false_ne_true
    split at hrule
    next cp heq =>
      refine ⟨cp, heq, ?_⟩
      simp only [Bool.and_eq_true, decide_eq_true_eq] at hrule
      exact hrule
    next heq =>
      exact absurd hrule Bool.false_ne_true

theorem castling_needs_unmoved_corner_rook_witness :
    isMoveLegal castleBoard castleKing { x := 2, y := 0 } = .ok true ∧
    ∃ cornerPiece,
      occAt castleBoard (if (2 : Int) - 4 < 0 then 0 else 7) 0 = some cornerPiece ∧
      cornerPiece.type = PieceType.Rook ∧ cornerPiece.state.notMoved = true := by
  have hok : isMoveLegal castleBoard castleKing { x := 2, y := 0 } = .ok true := by rfl
  exact ⟨hok, castling_needs_unmoved_corner_rook castleBoard castleKing
    { x := 2, y := 0 } rfl rfl rfl (by decide) hok⟩

theorem kindChar_roundtrip : ∀ t : PieceType, parseKind (some (kindChar t)) = t := by decide

theorem colorChar_roundtrip : ∀ c : PieceColor, parseColor (some (colorChar c)) = c := by decide

theorem boolChar_roundtrip : ∀ x : Bool, decide (some (boolChar x) = some '1') = x := by decide

theorem fileChar_roundtrip : ∀ i : Fin 8,
    ((Char.ofNat (97 + (i.val : Int)).toNat).toNat : Int) - 97 = (i.val : Int) := by decide

theorem rankChar_digit : ∀ j : Fin 8,
    (Char.ofNat (49 + (j.val : Int)).toNat).isDigit = true := by decide

theorem rankChar_roundtrip : ∀ j : Fin 8,
    (((Char.ofNat (49 + (j.val : Int)).toNat).toNat : Int) - 48) - 1 = (j.val : Int) := by decide

theorem placeChunk_record (i j : Fin 8) (pc : ChessPiece) (acc : ChessBoard)
    (hpos : pc.state.position = { x := (i.val : Int), y := (j.val : Int) }) :
    placeChunk (kindChar pc.type :: colorChar pc.color :: pc.state.toSerial) acc =
      .ok (setOcc acc (i.val : Int) (j.val : Int) (some pc)) := by
  obtain ⟨t, c, st⟩ := pc
  obtain ⟨pos, ep, nm⟩ := st
  dsimp only at hpos
  subst hpos
  simp only [PieceState.toSerial, vec2ChessCoords, List.cons_append, List.nil_append]
  simp only [placeChunk, charAtOpt, PieceState.fromSerial, chessCoords2vec, List.drop, List.take]
  simp only [List.getElem?_cons_zero, List.getElem?_cons_succ]
  simp only [kindChar_roundtrip, colorChar_roundtrip, fileChar_roundtrip,
    rankChar_digit, rankChar_roundtrip, boolChar_roundtrip, if_true]
  have hi := i.isLt
  have hj := j.isLt
  exact setOccE_ok _ _ _ _ (by omega)

theorem intPair_eq (i j : Fin 8) (q : Fin 8 × Fin 8)
    (h1 : (i.val : Int) = (q.1.val : Int)) (h2 : (j.val : Int) = (q.2.val : Int)) :
    (i, j) = q := by
  obtain ⟨q1, q2⟩ := q
  simp only [Prod.mk.injEq]
  exact ⟨Fin.ext (by exact_mod_cast h1), Fin.ext (by exact_mod_cast h2)⟩

theorem fromSerialGo_chunk_ok (c0 c1 c2 c3 c4 c5 : Char) (rest : List Char)
    (acc b2 : ChessBoard) (h : placeChunk [c0, c1, c2, c3, c4, c5] acc = .ok b2) :
    fromSerialGo (c0 :: c1 :: c2 :: c3 :: c4 :: c5 :: rest) acc =
      fromSerialGo rest b2 := by
  rw [fromSerialGo, h]

theorem fromSerialGo_toSerialOrder (b : ChessBoard)
    (hwf : ∀ (i j : Fin 8) (pc : ChessPiece), b i j = some pc →
      pc.state.position = { x := (i.val : Int), y := (j.val : Int) })
    (order : List (Fin 8 × Fin 8)) :
    ∀ acc : ChessBoard,
      fromSerialGo (toSerialOrder b order) acc =
        .ok (fun i j => if (i, j) ∈ order ∧ (b i j).isSome then b i j else acc i j) := by
  induction order with
  | nil =>
    intro acc
    have hacc : (fun i j => if (i, j) ∈ ([] : List (Fin 8 × Fin 8)) ∧ (b i j).isSome
        then b i j else acc i j) = acc := by
      funext i j
      simp
    show Except.ok acc = _
    rw [hacc]
  | cons q order ih =>
    obtain ⟨q1, q2⟩ := q
    intro acc
    have hflat : toSerialOrder b ((q1, q2) :: order) =
        recordAt b (q1, q2) ++ toSerialOrder b order := by
      simp [toSerialOrder]
    rw [hflat]
    cases hq : b q1 q2 with
    | none =>
      have hrec : recordAt b (q1, q2) = [] := by simp [recordAt, hq]
      rw [hrec, List.nil_append, ih acc]
      congr 1
      funext i j
      by_cases hmem : (i, j) ∈ order ∧ (b i j).isSome
      · rw [if_pos hmem, if_pos ⟨List.mem_cons_of_mem _ hmem.1, hmem.2⟩]
      · rw [if_neg hmem, if_neg]
        intro ⟨hm, hs⟩
        rcases List.mem_cons.mp hm with heq | hm2
        · rw [Prod.mk.injEq] at heq
          obtain ⟨rfl, rfl⟩ := heq
          rw [hq] at hs
          exact Bool.noConfusion hs
        · exact hmem ⟨hm2, hs⟩
    | some pc =>
      have hrec : recordAt b (q1, q2) =
          kindChar pc.type :: colorChar pc.color :: pc.state.toSerial := by
        simp [recordAt, hq]
      have hser : pc.state.toSerial =
          [Char.ofNat (97 + pc.state.position.x).toNat,
           Char.ofNat (49 + pc.state.position.y).toNat,
           boolChar pc.state.enPassant, boolChar pc.state.notMoved] := by
        simp [PieceState.toSerial, vec2ChessCoords]
      have hplace := placeChunk_record q1 q2 pc acc (hwf q1 q2 pc hq)
      rw [hser] at hplace
      rw [hrec, hser]
      simp only [List.cons_append, List.nil_append]
      rw [fromSerialGo_chunk_ok _ _ _ _ _ _ _ _ _ hplace,
        ih (setOcc acc (q1.val : Int) (q2.val : Int) (some pc))]
      congr 1
      funext i j
      by_cases hmem : (i, j) ∈ order ∧ (b i j).isSome
      · rw [if_pos hmem, if_pos ⟨List.mem_cons_of_mem _ hmem.1, hmem.2⟩]
      · rw [if_neg hmem, setOcc_apply]
        by_cases hqe : (i, j) = (q1, q2)
        · rw [Prod.mk.injEq] at hqe
          obtain ⟨rfl, rfl⟩ := hqe
          rw [if_pos ⟨rfl, rfl⟩, if_pos ⟨List.mem_cons_self _ _, by rw [hq]; rfl⟩, hq]
        · rw [if_neg fun ⟨h1, h2⟩ => hqe (intPair_eq i j (q1, q2) h1 h2), if_neg]
          intro ⟨hm, hs⟩
          rcases List.mem_cons.mp hm with heq | hm2
          · exact hqe heq
          · exact hmem ⟨hm2, hs⟩

/-- C2: on a well-formed board (each occupant's stored position is the square
holding it), decoding the encoding restores the board square for square — the
occupancy, kind, color, coordinates and both flags — and this holds for the
source's own file-major visiting order (ChessBoard.toSerial) and for every
other visiting order that covers the squares, since each record carries its
position explicitly. -/
theorem toSerial_fromSerial_roundtrip (b : ChessBoard)
    (hwf : ∀ (i j : Fin 8) (pc : ChessPiece), b i j = some pc →
      pc.state.position = { x := (i.val : Int), y := (j.val : Int) })
    (order : List (Fin 8 × Fin 8)) (hcover : ∀ q : Fin 8 × Fin 8, q ∈ order) :
    (∃ b2, ChessBoard.fromSerial b.toSerial = .ok b2 ∧ ∀ i j, b2 i j = b i j) ∧
    (∃ b2, ChessBoard.fromSerial (toSerialOrder b order) = .ok b2 ∧
      ∀ i j, b2 i j = b i j) := by
  have key : ∀ ord : List (Fin 8 × Fin 8), (∀ q : Fin 8 × Fin 8, q ∈ ord) →
      ∃ b2, ChessBoard.fromSerial (toSerialOrder b ord) = .ok b2 ∧
        ∀ i j, b2 i j = b i j := by
    intro ord hc
    refine ⟨_, by rw [ChessBoard.fromSerial, fromSerialGo_toSerialOrder b hwf ord emptyBoard], ?_⟩
    intro i j
    by_cases hocc : (b i j).isSome
    · rw [if_pos ⟨hc (i, j), hocc⟩]
    · rw [if_neg fun h => hocc h.2]
      cases hbv : b i j with
      | none => rfl
      | some pc => rw [hbv] at hocc; exact absurd rfl hocc
  exact ⟨key squaresList mem_squaresList, key order hcover⟩

theorem toSerial_fromSerial_roundtrip_witness :
    (∀ (i j : Fin 8) (pc : ChessPiece), sampleBoard i j = some pc →
      pc.state.position = { x := (i.val : Int), y := (j.val : Int) }) ∧
    (∃ b2, ChessBoard.fromSerial sampleBoard.toSerial = .ok b2 ∧
      ∀ i j, b2 i j = sampleBoard i j) := by
  have hwf : ∀ (i j : Fin 8) (pc : ChessPiece), sampleBoard i j = some pc →
      pc.state.position = { x := (i.val : Int), y := (j.val : Int) } := by
    intro i j pc h
    fin_cases i <;> fin_cases j <;> simp [sampleBoard] at h <;> subst h <;> rfl
  exact ⟨hwf,
    (toSerial_fromSerial_roundtrip sampleBoard hwf squaresList mem_squaresList).1⟩

theorem occE_ok_inv (b : ChessBoard) (x y : Int) (o : Option ChessPiece)
    (h : occE b x y = .ok o) :
    occAt b x y = o ∧ 0 ≤ x ∧ x < 8 ∧ 0 ≤ y ∧ y < 8 := by
  unfold occE at h
  split at h
  next hb => exact ⟨Except.ok.inj h, hb⟩
  next => exact Except.noConfusion h

theorem occAt_eq_cell (b : ChessBoard) (x y : Int) (pc : ChessPiece)
    (h : occAt b x y = some pc) :
    ∃ (i j : Fin 8), (i.val : Int) = x ∧ (j.val : Int) = y ∧ b i j = some pc := by
  have hb := occAt_some_bounds b x y pc h
  rw [occAt, dif_pos hb] at h
  exact ⟨⟨x.toNat, by omega⟩, ⟨y.toNat, by omega⟩, by simp [Int.toNat_of_nonneg hb.1],
    by simp [Int.toNat_of_nonneg hb.2.2.1], h⟩

theorem clearAllEnPassant_clears (bb : ChessBoard) (i j : Fin 8) (pc : ChessPiece)
    (h : clearAllEnPassant bb i j = some pc) : pc.state.enPassant = false := by
  unfold clearAllEnPassant at h
  cases hb : bb i j with
  | none => rw [hb] at h; exact Option.noConfusion h
  | some pc0 =>
    rw [hb] at h
    simp only [Option.map_some'] at h
    rw [← Option.some.inj h]

theorem occAt_clearAll (bb : ChessBoard) (x y : Int) :
    occAt (clearAllEnPassant bb) x y = (occAt bb x y).map
      (fun pc => { type := pc.type, color := pc.color
                   state := { position := pc.state.position, enPassant := false
                              notMoved := pc.state.notMoved } }) := by
  unfold occAt
  split
  · rfl
  · rfl

theorem clearSquareE_ok_inv (bb : ChessBoard) (x y : Int) (b1 : ChessBoard)
    (h : clearSquareE bb x y = .ok b1) :
    b1 = setOcc bb x y none ∧ 0 ≤ x ∧ x < 8 ∧ 0 ≤ y ∧ y < 8 := by
  unfold clearSquareE at h
  split at h
  next => exact Except.noConfusion h
  next o hoE =>
    exact ⟨(Except.ok.inj h).symm, (occE_ok_inv bb x y o hoE).2⟩

theorem movePiece_ok_inv (bb : ChessBoard) (f t : Vec2) (bb2 : ChessBoard)
    (h : movePiece bb f t = .ok bb2) :
    (occAt bb f.x f.y = none ∧ bb2 = bb) ∨
    (∃ mp, occAt bb f.x f.y = some mp ∧
      (0 ≤ t.x ∧ t.x < 8 ∧ 0 ≤ t.y ∧ t.y < 8) ∧
      bb2 = setOcc (setOcc (setOcc bb t.x t.y none) f.x f.y none) t.x t.y
        (some { type := mp.type, color := mp.color
                state := { position := t, enPassant := mp.state.enPassant
                           notMoved := false } })) := by
  unfold movePiece at h
  split at h
  next => exact Except.noConfusion h
  next hocc =>
    left
    exact ⟨(occE_ok_inv bb f.x f.y none hocc).1, (Except.ok.inj h).symm⟩
  next mp hocc =>
    right
    refine ⟨mp, (occE_ok_inv bb f.x f.y (some mp) hocc).1, ?_⟩
    split at h
    next => exact Except.noConfusion h
    next b1 hcE =>
      obtain ⟨hb1, hbnd⟩ := clearSquareE_ok_inv bb t.x t.y b1 hcE
      subst hb1
      exact ⟨hbnd, (Except.ok.inj h).symm⟩

theorem movePiece_preserves_epclear (bb : ChessBoard) (f t : Vec2) (bb2 : ChessBoard)
    (hmv : movePiece bb f t = .ok bb2)
    (hclear : ∀ (i j : Fin 8) (pc : ChessPiece), bb i j = some pc →
      pc.state.enPassant = false) :
    ∀ (i j : Fin 8) (pc : ChessPiece), bb2 i j = some pc →
      pc.state.enPassant = false := by
  intro i j pc hpc
  rcases movePiece_ok_inv bb f t bb2 hmv with ⟨_, rfl⟩ | ⟨mp, hmp, _, hb⟩
  · exact hclear i j pc hpc
  · subst hb
    rw [setOcc_apply] at hpc
    by_cases h1 : (i.val : Int) = t.x ∧ (j.val : Int) = t.y
    · rw [if_pos h1] at hpc
      obtain ⟨i2, j2, _, _, hcell⟩ := occAt_eq_cell bb f.x f.y mp hmp
      have hmpclear := hclear i2 j2 mp hcell
      rw [← Option.some.inj hpc]
      exact hmpclear
    · rw [if_neg h1, setOcc_apply] at hpc
      by_cases h2 : (i.val : Int) = f.x ∧ (j.val : Int) = f.y
      · rw [if_pos h2] at hpc
        exact Option.noConfusion hpc
      · rw [if_neg h2, setOcc_apply, if_neg h1] at hpc
        exact hclear i j pc hpc

/-- C5: whenever the legal branch of onPiecePlaced completes a move of the
piece occupying its stored square, the resulting board carries the enPassant
flag on no piece at all — except that when the mover is a Pawn whose rank
changed by exactly two, that pawn, now standing on the destination square,
and only that pawn, carries the flag. -/
theorem enPassant_flag_after_move (b : ChessBoard) (piece : ChessPiece)
    (coords : Vec2) (b2 : ChessBoard)
    (hOcc : occAt b piece.state.position.x piece.state.position.y = some piece)
    (hRun : onPiecePlacedApply b piece coords = .ok b2) :
    ∀ (i j : Fin 8) (pc : ChessPiece), b2 i j = some pc →
      (pc.state.enPassant = true ↔
        (piece.type = PieceType.Pawn ∧
         (piece.state.position.y - coords.y).natAbs = 2 ∧
         (i.val : Int) = coords.x ∧ (j.val : Int) = coords.y)) := by
  simp only [onPiecePlacedApply] at hRun
  split at hRun
  next => exact Except.noConfusion hRun
  next behindOcc hbe =>
    split at hRun
    next => exact Except.noConfusion hRun
    next b4 hb4 =>
      set b1 := (match behindOcc with
        | some victim =>
          if victim.color ≠ piece.color ∧ victim.state.enPassant = true then
            setOcc b coords.x
              (coords.y + if piece.color = PieceColor.Light then -1 else 1) none
          else b
        | none => b) with hb1def
      by_cases hflag : piece.type = PieceType.Pawn ∧
        (piece.state.position.y - coords.y).natAbs = 2
      case neg =>
        rw [if_neg hflag] at hb4
        have hclear3 : ∀ (i j : Fin 8) (pc : ChessPiece),
            clearAllEnPassant b1 i j = some pc → pc.state.enPassant = false :=
          fun i j pc h => clearAllEnPassant_clears b1 i j pc h
        have hclear4 : ∀ (i j : Fin 8) (pc : ChessPiece), b4 i j = some pc →
            pc.state.enPassant = false := by
          split at hb4
          · exact movePiece_preserves_epclear _ _ _ _ hb4 hclear3
          · intro i j pc h
            apply hclear3 i j pc
            rw [Except.ok.inj hb4]
            exact h
        have hclear2 := movePiece_preserves_epclear _ _ _ _ hRun hclear4
        intro i j pc hpc
        rw [hclear2 i j pc hpc]
        simp only [Bool.false_eq_true, false_iff]
        intro ⟨h1, h2, _⟩
        exact hflag ⟨h1, h2⟩
      case pos =>
        have hnotking : ¬(piece.type = PieceType.King ∧
            (coords.x - piece.state.position.x).natAbs = 2) := by
          intro ⟨hk, _⟩
          rw [hflag.1] at hk
          exact PieceType.noConfusion hk
        rw [if_neg hnotking, if_pos hflag] at hb4
        have hb4eq := Except.ok.inj hb4
        have hbnd := occAt_some_bounds _ _ _ _ hOcc
        have hvicne : occAt b1 piece.state.position.x piece.state.position.y =
            some piece := by
          rw [hb1def]
          cases behindOcc with
          | none => exact hOcc
          | some victim =>
            dsimp only
            split
            · rw [occAt_setOcc_of_ne]
              · exact hOcc
              · intro ⟨hx, hy⟩
                by_cases hcol : piece.color = PieceColor.Light
                · rw [if_pos hcol] at hy
                  omega
                · rw [if_neg hcol] at hy
                  omega
            · exact hOcc
        have hclearedAt : occAt (clearAllEnPassant b1)
            piece.state.position.x piece.state.position.y =
            some { type := piece.type, color := piece.color
                   state := { position := piece.state.position, enPassant := false
                              notMoved := piece.state.notMoved } } := by
          rw [occAt_clearAll, hvicne]
          rfl
        have hb3 : b4 = setOcc (clearAllEnPassant b1)
            piece.state.position.x piece.state.position.y
            (some { type := piece.type, color := piece.color
                    state := { position := piece.state.position, enPassant := true
                               notMoved := piece.state.notMoved } }) := by
          rw [← hb4eq]
          unfold setEnPassantTrueAt
          rw [hclearedAt]
        have hflagAt : occAt b4 piece.state.position.x piece.state.position.y =
            some { type := piece.type, color := piece.color
                   state := { position := piece.state.position, enPassant := true
                              notMoved := piece.state.notMoved } } := by
          rw [hb3]
          exact occAt_setOcc_self _ _ _ _ hbnd
        rcases movePiece_ok_inv b4 piece.state.position coords b2 hRun with
          ⟨hnone, _⟩ | ⟨mp, hmp, hcb, hb2⟩
        · rw [hflagAt] at hnone
          exact Option.noConfusion hnone
        · rw [hflagAt] at hmp
          have hmpe := Option.some.inj hmp
          have hmpflag : mp.state.enPassant = true := by rw [← hmpe]
          subst hb2
          intro i j pc hpc
          rw [setOcc_apply] at hpc
          by_cases hc1 : (i.val : Int) = coords.x ∧ (j.val : Int) = coords.y
          · rw [if_pos hc1] at hpc
            have hpce := Option.some.inj hpc
            rw [← hpce]
            constructor
            · intro _
              exact ⟨hflag.1, hflag.2, hc1⟩
            · intro _
              exact hmpflag
          · rw [if_neg hc1, setOcc_apply] at hpc
            by_cases hc2 : (i.val : Int) = piece.state.position.x ∧
              (j.val : Int) = piece.state.position.y
            · rw [if_pos hc2] at hpc
              exact Option.noConfusion hpc
            · rw [if_neg hc2, setOcc_apply, if_neg hc1] at hpc
              rw [hb3, setOcc_apply, if_neg hc2] at hpc
              rw [clearAllEnPassant_clears b1 i j pc hpc]
              simp only [Bool.false_eq_true, false_iff]
              intro ⟨_, _, hcc⟩
              exact hc1 hcc

theorem enPassant_flag_after_move_witness :
    occAt c5Board 4 1 = some c5Pawn ∧
    onPiecePlacedApply c5Board c5Pawn { x := 4, y := 3 } = .ok c5After ∧
    ∀ (i j : Fin 8) (pc : ChessPiece), c5After i j = some pc →
      (pc.state.enPassant = true ↔
        (c5Pawn.type = PieceType.Pawn ∧
         (c5Pawn.state.position.y - (3 : Int)).natAbs = 2 ∧
         (i.val : Int) = 4 ∧ (j.val : Int) = 3)) := by
  have hRun : onPiecePlacedApply c5Board c5Pawn { x := 4, y := 3 } = .ok c5After := by
    decide
  exact ⟨by decide, hRun,
    enPassant_flag_after_move c5Board c5Pawn { x := 4, y := 3 } c5After (by decide) hRun⟩
